import Mathlib

/-!
Verification development for the ex-libris research-paper bookshelf.

The definitions below are a shallow embedding of the TypeScript source:
pure functions are translated directly, JavaScript truthiness is made
explicit (the empty string, `null`/`undefined` and `0` are falsy),
`Array.prototype.sort` with the numeric-key comparators used by the source
is modelled by a stable insertion sort (ECMAScript specifies `sort` as
stable and consistent with the comparator), and thrown exceptions become
`Except` errors.  The character escapes `\x7b` and `\x7d` denote the left
and right curly brace characters.
-/

set_option maxRecDepth 8192

/-- The persisted entity of src (interface Paper in the types module). -/
structure Paper where
  id : String
  url : String
  title : String
  summary : String
  authors : List String
  topic : String
  subTopic : Option String
  tags : List String
  journal : Option String
  publishDate : Option String
  addedAt : Nat
deriving DecidableEq, Repr

/-- The transient record produced by ingestion (interface PaperMetadata). -/
structure PaperMetadata where
  title : String
  summary : String
  authors : List String
  topic : String
  subTopic : Option String
  tags : List String
  journal : Option String
  publishDate : Option String
deriving DecidableEq, Repr

/-- Descending-key relation realising the source comparators
`(a, b) => b.addedAt - a.addedAt` and `(a, b) => b[1] - a[1]`:
`a` may precede `b` exactly when the key of `b` is at most the key of `a`. -/
@[reducible] def keyDescRel {α : Type} (key : α → Nat) (a b : α) : Prop :=
  key b ≤ key a

instance keyDescRelTotal {α : Type} (key : α → Nat) :
    IsTotal α (keyDescRel key) :=
  ⟨fun a b => Nat.le_total (key b) (key a)⟩

instance keyDescRelTrans {α : Type} (key : α → Nat) :
    IsTrans α (keyDescRel key) :=
  ⟨fun _ _ _ h1 h2 => Nat.le_trans h2 h1⟩

/-- JavaScript `Array.prototype.sort` under a comparator that compares a
numeric key descending.  ECMAScript requires the result to be sorted
consistently with the comparator and stable; a stable insertion sort
realises exactly that. -/
def sortDescBy {α : Type} (key : α → Nat) (l : List α) : List α :=
  List.insertionSort (keyDescRel key) l

/-- src App.tsx handleDeletePaper: `prev.filter(p => p.id !== id)`. -/
def handleDeletePaper (pid : String) (papers : List Paper) : List Paper :=
  papers.filter (fun p => p.id != pid)

/-- src App.tsx handleAddPaper: `setPapers(prev => [newPaper, ...prev])`. -/
def handleAddPaper (newPaper : Paper) (prev : List Paper) : List Paper :=
  newPaper :: prev

/-- The function mapped over the collection by src App.tsx
handleUpdateMetadata:
`p.id === id ? { ...p, topic: newTopic, subTopic: newSubTopic, tags: newTags } : p`. -/
def updateOne (pid : String) (newTopic : String) (newSubTopic : Option String)
    (newTags : List String) (p : Paper) : Paper :=
  if p.id == pid then
    { p with topic := newTopic, subTopic := newSubTopic, tags := newTags }
  else p

/-- src App.tsx handleUpdateMetadata: `prev.map(p => ...)`. -/
def handleUpdateMetadata (pid : String) (newTopic : String)
    (newSubTopic : Option String) (newTags : List String)
    (papers : List Paper) : List Paper :=
  papers.map (updateOne pid newTopic newSubTopic newTags)

/-- JavaScript whitespace as relevant here: the characters matched both by
`String.prototype.trim` and by the regex class `\s` on the texts this
system handles. -/
def wsCharB (c : Char) : Bool :=
  c == ' ' || c == '\t' || c == '\n' || c == '\r' || c == '\x0b' || c == '\x0c'

/-- JavaScript `String.prototype.trim`. -/
def jsTrim (s : String) : String :=
  ⟨((s.data.dropWhile wsCharB).reverse.dropWhile wsCharB).reverse⟩

/-- JavaScript `String.prototype.toLowerCase` (simple case mapping). -/
def jsToLower (s : String) : String :=
  ⟨s.data.map Char.toLower⟩

/-- Whether `sub` occurs as a contiguous run inside the second list:
JavaScript `includes` at character-list level. -/
def charsContain (sub : List Char) : List Char → Bool
  | [] => sub.isEmpty
  | c :: cs => sub.isPrefixOf (c :: cs) || charsContain sub cs

/-- JavaScript `a.includes(b)`. -/
def jsIncludes (a b : String) : Bool :=
  charsContain b.data a.data

/-- Truthiness of a JavaScript `string | null` value: null and the empty
string are falsy. -/
def jsTruthyStr : Option String → Bool
  | none => false
  | some s => s != ""

/-- The filter selection state of src App.tsx: selectedTopic,
selectedSubTopic and selectedTag are `string | null`, searchQuery a
string. -/
structure SelectionState where
  selectedTopic : Option String
  selectedSubTopic : Option String
  selectedTag : Option String
  searchQuery : String
deriving DecidableEq, Repr

def initialSelection : SelectionState := ⟨none, none, none, ""⟩

/-- src App.tsx handleTopicSelection: set the topic, reset the sub-topic,
clear the tag filter. -/
def handleTopicSelection (t : Option String) (s : SelectionState) : SelectionState :=
  { s with selectedTopic := t, selectedSubTopic := none, selectedTag := none }

/-- src App.tsx handleTagClick: set the tag, clear topic and sub-topic. -/
def handleTagClick (tag : String) (s : SelectionState) : SelectionState :=
  { s with selectedTag := some tag, selectedTopic := none, selectedSubTopic := none }

/-- Sidebar onSelectSubTopic is setSelectedSubTopic directly. -/
def setSelectedSubTopicState (st : Option String) (s : SelectionState) : SelectionState :=
  { s with selectedSubTopic := st }

/-- The active-tag banner's clear button: setSelectedTag(null). -/
def clearTagFilter (s : SelectionState) : SelectionState :=
  { s with selectedTag := none }

/-- The search input: setSearchQuery. -/
def setSearchQueryState (q : String) (s : SelectionState) : SelectionState :=
  { s with searchQuery := q }

/-- The selection-mutating interactions the UI exposes. -/
inductive SelEvent where
  | topicSelect (t : Option String)
  | subTopicSelect (st : Option String)
  | tagClick (tag : String)
  | tagClear
  | search (q : String)
deriving DecidableEq, Repr

def selStep (s : SelectionState) : SelEvent → SelectionState
  | .topicSelect t => handleTopicSelection t s
  | .subTopicSelect st => setSelectedSubTopicState st s
  | .tagClick tg => handleTagClick tg s
  | .tagClear => clearTagFilter s
  | .search q => setSearchQueryState q s

/-- When an event can fire: the Sidebar renders sub-topic buttons only
inside the expansion of the currently selected topic, so onSelectSubTopic
fires only while a topic is selected; every other interaction is always
available. -/
def selAllowed (s : SelectionState) : SelEvent → Prop
  | .subTopicSelect _ => s.selectedTopic.isSome = true
  | _ => True

/-- Selection states reachable from the initial state through allowed
interactions. -/
inductive ReachableSel : SelectionState → Prop where
  | init : ReachableSel initialSelection
  | step {s : SelectionState} (e : SelEvent) :
      ReachableSel s → selAllowed s e → ReachableSel (selStep s e)

/-- The search conjunct of src App.tsx filteredPapers (evaluated only when
searchQuery is truthy): case-insensitive substring match of the query
against the title, any author, any tag, the topic, and the sub-topic when
that is truthy. -/
def matchesSearch (q : String) (p : Paper) : Bool :=
  jsIncludes (jsToLower p.title) (jsToLower q)
  || p.authors.any (fun a => jsIncludes (jsToLower a) (jsToLower q))
  || p.tags.any (fun tg => jsIncludes (jsToLower tg) (jsToLower q))
  || jsIncludes (jsToLower p.topic) (jsToLower q)
  || (match p.subTopic with
      | some st => st != "" && jsIncludes (jsToLower st) (jsToLower q)
      | none => false)

/-- The filter predicate of src App.tsx filteredPapers; each ternary
`sel ? test : true` is vacuous when the selected value is null OR the
empty string (JavaScript falsiness). -/
def paperMatches (sel : SelectionState) (p : Paper) : Bool :=
  (match sel.selectedTopic with
   | some t => t == "" || p.topic == t
   | none => true)
  && (match sel.selectedSubTopic with
      | some st => st == "" || p.subTopic == some st
      | none => true)
  && (match sel.selectedTag with
      | some tg => tg == "" || p.tags.contains tg
      | none => true)
  && (if sel.searchQuery == "" then true else matchesSearch sel.searchQuery p)

/-- src App.tsx filteredPapers: filter, then
`.sort((a, b) => b.addedAt - a.addedAt)`. -/
def filteredPapers (papers : List Paper) (sel : SelectionState) : List Paper :=
  sortDescBy Paper.addedAt (papers.filter (paperMatches sel))

/-- The search predicate exactly as the specification words it: OR of
case-insensitive substring matches over title, any author name, any tag,
topic, and the sub-topic if present. -/
def searchClaim (q : String) (p : Paper) : Bool :=
  jsIncludes (jsToLower p.title) (jsToLower q)
  || p.authors.any (fun a => jsIncludes (jsToLower a) (jsToLower q))
  || p.tags.any (fun tg => jsIncludes (jsToLower tg) (jsToLower q))
  || jsIncludes (jsToLower p.topic) (jsToLower q)
  || (match p.subTopic with
      | some st => jsIncludes (jsToLower st) (jsToLower q)
      | none => false)

/-- The claim's predicate read literally: an axis is active whenever its
selection is present (`some`), vacuously true only when unset (`none`);
search is active when searchText is non-empty. -/
def claimMatchesStrict (sel : SelectionState) (p : Paper) : Bool :=
  (match sel.selectedTopic with
   | some t => p.topic == t
   | none => true)
  && (match sel.selectedSubTopic with
      | some st => p.subTopic == some st
      | none => true)
  && (match sel.selectedTag with
      | some tg => p.tags.contains tg
      | none => true)
  && (if sel.searchQuery == "" then true else searchClaim sel.searchQuery p)

/-- The amended claim's predicate: as claimMatchesStrict, except that a
selected empty-string topic, sub-topic or tag deactivates its axis just
as null does. -/
def claimMatchesAmended (sel : SelectionState) (p : Paper) : Bool :=
  (match sel.selectedTopic with
   | some t => t == "" || p.topic == t
   | none => true)
  && (match sel.selectedSubTopic with
      | some st => st == "" || p.subTopic == some st
      | none => true)
  && (match sel.selectedTag with
      | some tg => tg == "" || p.tags.contains tg
      | none => true)
  && (if sel.searchQuery == "" then true else searchClaim sel.searchQuery p)

/-- Increment the count of key `k` in an insertion-ordered count list:
JavaScript `counts[k] = (counts[k] || 0) + 1` on a plain object. -/
def incrKey : List (String × Nat) → String → List (String × Nat)
  | [], k => [(k, 1)]
  | (k', n) :: rest, k =>
    if k' == k then (k', n + 1) :: rest else (k', n) :: incrKey rest k

/-- src App.tsx `topics` memo: one count per paper by its topic field,
skipped when the topic is falsy (`if (t)`). -/
def topicCounts (papers : List Paper) : List (String × Nat) :=
  papers.foldl (fun m p => if p.topic == "" then m else incrKey m p.topic) []

/-- src App.tsx `subTopics` memo: empty when no topic is selected
(`if (!selectedTopic) return` an empty object — a selected empty string is
falsy too); otherwise count sub-topics of papers whose topic equals the
selection and whose sub-topic is truthy. -/
def subTopicCounts (papers : List Paper) : Option String → List (String × Nat)
  | none => []
  | some sel =>
    if sel == "" then []
    else
      papers.foldl (fun m p =>
        if p.topic == sel then
          match p.subTopic with
          | some st => if st == "" then m else incrKey m st
          | none => m
        else m) []

/-- Sidebar sortedTopics:
`Object.entries(topics).sort((a, b) => (b[1]) - (a[1]))`. -/
def sortedTopics (papers : List Paper) : List (String × Nat) :=
  sortDescBy Prod.snd (topicCounts papers)

/-- Sidebar sortedSubTopics. -/
def sortedSubTopics (papers : List Paper) (selectedTopic : Option String) :
    List (String × Nat) :=
  sortDescBy Prod.snd (subTopicCounts papers selectedTopic)

/-- A record as persisted: older records may lack `topic` and `tags`
(absence modelled as `none`). -/
structure StoredPaper where
  id : String
  url : String
  title : String
  summary : String
  authors : List String
  topic : Option String
  subTopic : Option String
  tags : Option (List String)
  journal : Option String
  publishDate : Option String
  addedAt : Nat
deriving DecidableEq, Repr

/-- src App.tsx papers state initializer, migration of one record:
`topic: p.topic || (p.tags && p.tags.length > 0 ? p.tags[0] : "Biology"),
tags: p.tags || []` (note that in JavaScript an empty array is truthy, so
`p.tags && p.tags.length > 0` is false exactly when tags are absent or
empty, and `p.tags || []` keeps a present empty array). -/
def migratePaper (p : StoredPaper) : StoredPaper :=
  { p with
    topic := some (if jsTruthyStr p.topic then p.topic.getD ""
      else
        match p.tags with
        | some (t :: _) => t
        | _ => "Biology"),
    tags := some (p.tags.getD []) }

/-- The load-time upgrade over the whole stored collection. -/
def migrate (papers : List StoredPaper) : List StoredPaper :=
  papers.map migratePaper

/-- A stored record that already conforms to the data model: it carries a
non-empty topic label and a tags list. -/
def conformsStored (p : StoredPaper) : Prop :=
  (∃ t : String, p.topic = some t ∧ t ≠ "") ∧ ∃ l : List String, p.tags = some l

/-- The normalisation under which titles collide:
`title.toLowerCase().trim()`. -/
def titleKey (s : String) : String := jsTrim (jsToLower s)

/-- src AddPaperModal handleSubmit duplicate check:
`existingPapers.some(p => p.title.toLowerCase().trim() ===
paperMetadata.title.toLowerCase().trim())`. -/
def isDuplicateTitle (existing : List Paper) (candidateTitle : String) : Bool :=
  existing.any (fun p => titleKey p.title == titleKey candidateTitle)

def duplicateMsg : String := "This paper already exists in your bookshelf"

/-- src AddPaperModal handleSubmit after metadata retrieval, as a state
transformer on the collection: on a title collision the thrown error is
caught, shown, and the collection is left as it was; otherwise the new
Paper is assembled (fresh id, resolved url, `Date.now()` timestamp) and
prepended via onAdd, which is App's handleAddPaper. -/
def mkNewPaper (md : PaperMetadata) (newId paperUrl : String) (now : Nat) : Paper :=
  { id := newId, url := paperUrl, title := md.title, summary := md.summary,
    authors := md.authors, topic := md.topic, subTopic := md.subTopic,
    tags := md.tags, journal := md.journal, publishDate := md.publishDate,
    addedAt := now }

/-- The duplicate gate and insertion of handleSubmit as one step on the
collection: the pair is the resulting collection and the error shown. -/
def submitResult (existing : List Paper) (md : PaperMetadata)
    (newId paperUrl : String) (now : Nat) : List Paper × Option String :=
  if isDuplicateTitle existing md.title then (existing, some duplicateMsg)
  else (handleAddPaper (mkNewPaper md newId paperUrl now) existing, none)

/-- src AddPaperModal error rendering: the dedicated amber duplicate style
is selected by `error.includes("already exists")`. -/
def errIsDuplicate (msg : String) : Bool := jsIncludes msg "already exists"

/-- JSON values as `JSON.parse` can return them. -/
inductive Json where
  | null : Json
  | bool (b : Bool) : Json
  | num (n : Int) : Json
  | str (s : String) : Json
  | arr (elems : List Json) : Json
  | obj (fields : List (String × Json)) : Json

/-- First-match lookup among an object's (unique) keys. -/
def lookupField : List (String × Json) → String → Option Json
  | [], _ => none
  | (k', v) :: rest, k => if k' == k then some v else lookupField rest k

/-- JavaScript member access `data.k` for the fields the validator reads:
undefined (`none`) on non-objects and for absent keys; access on a parsed
`null` is handled separately since it throws. -/
def jsField : Json → String → Option Json
  | .obj fs, k => lookupField fs k
  | _, _ => none

/-- JavaScript truthiness of a possibly-undefined JSON value. -/
def jsTruthy : Option Json → Bool
  | none => false
  | some .null => false
  | some (.bool b) => b
  | some (.num n) => n != 0
  | some (.str s) => s != ""
  | some (.arr _) => true
  | some (.obj _) => true

/-- `Array.isArray` on a possibly-undefined JSON value. -/
def jsIsArray : Option Json → Bool
  | some (.arr _) => true
  | _ => false

/-- The validator's incompleteness test:
`!data.title || !data.summary || !Array.isArray(data.authors) ||
!Array.isArray(data.tags) || !data.topic`. -/
def jsIncomplete (d : Json) : Bool :=
  !jsTruthy (jsField d "title") || !jsTruthy (jsField d "summary")
  || !jsIsArray (jsField d "authors") || !jsIsArray (jsField d "tags")
  || !jsTruthy (jsField d "topic")

def jsonFenceOpen : List Char := "```json".data

def fenceTicks : List Char := "```".data

/-- After the lazy capture group the regex needs `\s*` then a closing
fence; since no backtick is whitespace this matches exactly when the
maximal whitespace run from here is followed by three backticks. -/
def closesFence (cs : List Char) : Bool :=
  fenceTicks.isPrefixOf (cs.dropWhile wsCharB)

/-- The lazy capture group of the fenced-block regex: the shortest run
from here whose remainder is whitespace and then a closing fence; `none`
when the text ends without one. -/
def captureToFence : List Char → Option (List Char)
  | [] => none
  | c :: cs =>
    if closesFence (c :: cs) then some []
    else (captureToFence cs).map (fun g => c :: g)

/-- The leftmost match of the regex
`/` + three backticks + `json\s*([\s\S]*?)\s*` + three backticks + `/`
in the text, returning its capture group: at each starting position, after
the literal tagged opening fence the leading `\s*` is greedy and the group
lazy. -/
def fenceCapture : List Char → Option (List Char)
  | [] => none
  | c :: cs =>
    match (if jsonFenceOpen.isPrefixOf (c :: cs)
           then captureToFence (((c :: cs).drop 7).dropWhile wsCharB)
           else none) with
    | some g => some g
    | none => fenceCapture cs

/-- JavaScript `indexOf` of a single character. -/
def firstIdxOf (c : Char) : List Char → Option Nat
  | [] => none
  | x :: xs => if x == c then some 0 else (firstIdxOf c xs).map (fun n => n + 1)

/-- JavaScript `lastIndexOf` of a single character. -/
def lastIdxOf (c : Char) : List Char → Option Nat
  | [] => none
  | x :: xs =>
    match lastIdxOf c xs with
    | some k => some (k + 1)
    | none => if x == c then some 0 else none

/-- The extraction tiers ("Improved cleanup strategy") of src
parseResponse: the fenced JSON block first; otherwise the inclusive
substring from the first left brace to the last right brace when the
latter strictly follows the former; otherwise the trimmed text. -/
def extractJsonString (text : String) : String :=
  match fenceCapture text.data with
  | some g => ⟨g⟩
  | none =>
    match firstIdxOf '\x7b' text.data, lastIdxOf '\x7d' text.data with
    | some i, some j =>
      if i < j then ⟨(text.data.drop i).take (j + 1 - i)⟩ else jsTrim text
    | some _, none => jsTrim text
    | none, _ => jsTrim text

/-- The spec-side fence condition: somewhere in the text a JSON-tagged
opening fence is followed later by a closing fence — precisely the texts
the source regex matches, since its whitespace runs and its lazy capture
group may be empty and match anything respectively. -/
def HasFence (l : List Char) : Prop :=
  ∃ pre mid rest, l = pre ++ jsonFenceOpen ++ mid ++ fenceTicks ++ rest

def noResponseMsg : String := "No response received from AI service."

def missingTitleMsg : String := "Could not extract paper title from AI response."

def parseFailMsg : String :=
  "Failed to parse AI response. The model did not return valid JSON."

/-- The body of the `try` block of src parseResponse, parameterised by the
platform's `JSON.parse` (`none` when that throws): member access on a
parsed `null` throws a TypeError; a falsy `title` throws the
missing-title error; otherwise the parsed value itself is returned (cast
to PaperMetadata, all fields passing through untouched) together with
whether the incomplete-structure diagnostic (`console.warn`) fired. -/
def tryValidate (jsonParse : String → Option Json) (jsonString : String) :
    Except String (Json × Bool) :=
  match jsonParse jsonString with
  | none => Except.error "SyntaxError: invalid JSON"
  | some Json.null => Except.error "TypeError: cannot read title of null"
  | some d =>
    if jsTruthy (jsField d "title") then Except.ok (d, jsIncomplete d)
    else Except.error missingTitleMsg

/-- src parseResponse: empty text is rejected first; then extraction and
the `try` block run, and the surrounding `catch` replaces EVERY error
thrown inside — the JSON.parse syntax error, the TypeError and the
missing-title error alike — with the one generic parse-failure message. -/
def parseResponse (jsonParse : String → Option Json) (text : String) :
    Except String (Json × Bool) :=
  if text == "" then Except.error noResponseMsg
  else
    match tryValidate jsonParse (extractJsonString text) with
    | Except.ok r => Except.ok r
    | Except.error _ => Except.error parseFailMsg

/-- Count lookup with default 0 (reading a possibly-absent object entry). -/
def lookupNat (m : List (String × Nat)) (k : String) : Nat :=
  (List.lookup k m).getD 0

/-- Concrete input for the closed theorems: a paper with no tags. -/
def paperNoTags : Paper :=
  { id := "p1", url := "u1", title := "Paper One", summary := "s1",
    authors := ["Ada"], topic := "Neuroscience", subTopic := none,
    tags := [], journal := none, publishDate := none, addedAt := 5 }

/-- Concrete input: a selection whose tag axis holds the empty string. -/
def emptyTagSelection : SelectionState :=
  { selectedTopic := none, selectedSubTopic := none, selectedTag := some "",
    searchQuery := "" }

/-- Concrete input: a paper whose topic is the empty string. -/
def paperEmptyTopic : Paper :=
  { id := "p2", url := "u2", title := "Paper Two", summary := "s2",
    authors := [], topic := "", subTopic := none, tags := [],
    journal := none, publishDate := none, addedAt := 1 }

/-- A fragment of `JSON.parse`: the two-character brace text parses to the
empty object, anything else throws. -/
def parseStubEmptyObj : String → Option Json :=
  fun s => if s == "\x7b\x7d" then some (Json.obj []) else none

/-- Fields of a parsed object holding only a title and optional fields. -/
def titledFields : List (String × Json) :=
  [("title", Json.str "Attention Is All You Need"),
   ("journal", Json.str "NeurIPS"),
   ("publishDate", Json.str "2017"),
   ("subTopic", Json.str "Transformers")]

/-- A fragment of `JSON.parse` returning an object that has a title and
optional fields but no summary, authors, tags or topic. -/
def parseStubTitled : String → Option Json :=
  fun s => if s == "only a title" then some (Json.obj titledFields) else none

/-- Concrete input: an existing paper whose stored title differs from the
candidate's only by case and surrounding whitespace. -/
def attentionExisting : Paper :=
  { id := "p3", url := "u3", title := "  attention is all you need ",
    summary := "s3", authors := [], topic := "ML", subTopic := none,
    tags := [], journal := none, publishDate := none, addedAt := 2 }

/-- Concrete input: the colliding candidate metadata. -/
def attentionCandidate : PaperMetadata :=
  { title := "Attention Is All You Need", summary := "s", authors := [],
    topic := "ML", subTopic := none, tags := [], journal := none,
    publishDate := none }

/-- Concrete input: a stored legacy record with tags but no topic. -/
def storedLegacyTagged : StoredPaper :=
  { id := "L1", url := "u", title := "legacy one", summary := "s",
    authors := [], topic := none, subTopic := none,
    tags := some ["fMRI", "memory"], journal := none, publishDate := none,
    addedAt := 0 }

/-- Concrete input: a stored legacy record with neither tags nor topic. -/
def storedLegacyBare : StoredPaper :=
  { id := "L2", url := "u", title := "legacy two", summary := "s",
    authors := [], topic := none, subTopic := none, tags := none,
    journal := none, publishDate := none, addedAt := 0 }

/-- Concrete input: a reachable selection state holding a sub-topic. -/
def subTopicSelectedState : SelectionState :=
  selStep (selStep initialSelection (SelEvent.topicSelect (some "Neuroscience")))
    (SelEvent.subTopicSelect (some "Cognitive Neuroscience"))

theorem sortDescBy_perm {α : Type} (key : α → Nat) (l : List α) :
    List.Perm (sortDescBy key l) l :=
  List.perm_insertionSort _ l

theorem sortDescBy_pairwise {α : Type} (key : α → Nat) (l : List α) :
    List.Pairwise (keyDescRel key) (sortDescBy key l) := by
  have h : List.Sorted (keyDescRel key) (List.insertionSort (keyDescRel key) l) :=
    List.sorted_insertionSort (keyDescRel key) l
  exact h

theorem filter_orderedInsert_key {α : Type} (key : α → Nat) (t : Nat) (x : α)
    (l : List α) :
    (List.orderedInsert (keyDescRel key) x l).filter (fun y => key y == t)
      = if key x == t then x :: l.filter (fun y => key y == t)
        else l.filter (fun y => key y == t) := by
  induction l with
  | nil =>
    by_cases hx : key x = t
    · have hbx : (key x == t) = true := by simp [hx]
      simp [List.orderedInsert, List.filter, hbx]
    · have hbx : (key x == t) = false := by simp [hx]
      simp [List.orderedInsert, List.filter, hbx]
  | cons y ys ih =>
    by_cases h : keyDescRel key x y
    · by_cases hx : key x = t
      · have hbx : (key x == t) = true := by simp [hx]
        by_cases hy : key y = t
        · have hby : (key y == t) = true := by simp [hy]
          simp [List.orderedInsert, List.filter, h, hbx, hby]
        · have hby : (key y == t) = false := by simp [hy]
          simp [List.orderedInsert, List.filter, h, hbx, hby]
      · have hbx : (key x == t) = false := by simp [hx]
        by_cases hy : key y = t
        · have hby : (key y == t) = true := by simp [hy]
          simp [List.orderedInsert, List.filter, h, hbx, hby]
        · have hby : (key y == t) = false := by simp [hy]
          simp [List.orderedInsert, List.filter, h, hbx, hby]
    · have hyx : key x < key y := Nat.lt_of_not_le h
      by_cases hx : key x = t
      · have hbx : (key x == t) = true := by simp [hx]
        have hy : key y ≠ t := by omega
        have hby : (key y == t) = false := by simp [hy]
        simp [List.orderedInsert, List.filter, h, hbx, hby, ih]
      · have hbx : (key x == t) = false := by simp [hx]
        by_cases hy : key y = t
        · have hby : (key y == t) = true := by simp [hy]
          simp [List.orderedInsert, List.filter, h, hbx, hby, ih]
        · have hby : (key y == t) = false := by simp [hy]
          simp [List.orderedInsert, List.filter, h, hbx, hby, ih]

theorem filter_sortDescBy_key {α : Type} (key : α → Nat) (t : Nat) (l : List α) :
    (sortDescBy key l).filter (fun y => key y == t)
      = l.filter (fun y => key y == t) := by
  induction l with
  | nil => rfl
  | cons x xs ih =>
    show (List.orderedInsert (keyDescRel key) x
        (List.insertionSort (keyDescRel key) xs)).filter (fun y => key y == t) = _
    rw [filter_orderedInsert_key]
    by_cases hx : key x == t
    · simp only [hx, if_pos rfl]
      rw [show (List.insertionSort (keyDescRel key) xs) = sortDescBy key xs from rfl, ih]
      simp [List.filter, hx]
    · simp only [hx]
      rw [if_neg (by simp [hx])]
      rw [show (List.insertionSort (keyDescRel key) xs) = sortDescBy key xs from rfl, ih]
      simp [List.filter, hx]

/-- C10: deleting a paper removes exactly the papers whose id equals the
given id, leaves every remaining paper's fields and relative order
unchanged (the result is a sublist of the input), and deleting an id not
present in the collection leaves the collection unchanged. -/
theorem handleDeletePaper_spec (pid : String) (papers : List Paper) :
    (∀ p : Paper, p ∈ handleDeletePaper pid papers ↔ p ∈ papers ∧ p.id ≠ pid)
    ∧ List.Sublist (handleDeletePaper pid papers) papers
    ∧ ((∀ p ∈ papers, p.id ≠ pid) → handleDeletePaper pid papers = papers) := by
  refine ⟨?_, ?_, ?_⟩
  · intro p
    simp [handleDeletePaper, List.mem_filter, bne_iff_ne]
  · exact List.filter_sublist _
  · intro h
    apply List.filter_eq_self.mpr
    intro p hp
    simpa [bne_iff_ne] using h p hp

/-- C9: a metadata update rewrites the collection pointwise with updateOne,
which changes only topic, subTopic and tags of the paper whose id matches,
preserves id, url, title, summary, authors, journal, publishDate and
addedAt of every paper, and leaves non-matching papers unchanged; adding a
paper only prepends (every existing paper is untouched), and deleting
yields a sublist (survivors are the very same records), so no operation
mutates an existing paper's id or addedAt. -/
theorem handleUpdateMetadata_frame (pid newTopic : String)
    (newSubTopic : Option String) (newTags : List String)
    (papers : List Paper) :
    handleUpdateMetadata pid newTopic newSubTopic newTags papers
        = papers.map (updateOne pid newTopic newSubTopic newTags)
    ∧ (∀ p : Paper,
        (updateOne pid newTopic newSubTopic newTags p).id = p.id
        ∧ (updateOne pid newTopic newSubTopic newTags p).url = p.url
        ∧ (updateOne pid newTopic newSubTopic newTags p).title = p.title
        ∧ (updateOne pid newTopic newSubTopic newTags p).summary = p.summary
        ∧ (updateOne pid newTopic newSubTopic newTags p).authors = p.authors
        ∧ (updateOne pid newTopic newSubTopic newTags p).journal = p.journal
        ∧ (updateOne pid newTopic newSubTopic newTags p).publishDate = p.publishDate
        ∧ (updateOne pid newTopic newSubTopic newTags p).addedAt = p.addedAt)
    ∧ (∀ p : Paper, p.id ≠ pid → updateOne pid newTopic newSubTopic newTags p = p)
    ∧ (∀ p : Paper, p.id = pid →
        (updateOne pid newTopic newSubTopic newTags p).topic = newTopic
        ∧ (updateOne pid newTopic newSubTopic newTags p).subTopic = newSubTopic
        ∧ (updateOne pid newTopic newSubTopic newTags p).tags = newTags)
    ∧ (∀ (np : Paper) (prev : List Paper), handleAddPaper np prev = np :: prev)
    ∧ (∀ i : String, List.Sublist (handleDeletePaper i papers) papers) := by
  refine ⟨rfl, ?_, ?_, ?_, fun _ _ => rfl, fun _ => List.filter_sublist _⟩
  · intro p
    by_cases h : p.id == pid <;> simp [updateOne, h]
  · intro p h
    simp [updateOne, h]
  · intro p h
    simp [updateOne, h]

theorem reachable_subTopic_has_topic {s : SelectionState} (h : ReachableSel s) :
    s.selectedSubTopic.isSome = true → s.selectedTopic.isSome = true := by
  induction h with
  | init => simp [initialSelection]
  | step e hs ha ih =>
    cases e with
    | topicSelect t =>
      simp [selStep, handleTopicSelection]
    | subTopicSelect st =>
      intro _
      simpa [selStep, setSelectedSubTopicState] using ha
    | tagClick tg =>
      simp [selStep, handleTagClick]
    | tagClear =>
      intro hsub
      have := ih (by simpa [selStep, clearTagFilter] using hsub)
      simpa [selStep, clearTagFilter] using this
    | search q =>
      intro hsub
      have := ih (by simpa [selStep, setSearchQueryState] using hsub)
      simpa [selStep, setSearchQueryState] using this

/-- C7: changing the selected topic clears the selected sub-topic and the
selected tag; selecting a tag clears the selected topic and the sub-topic;
consequently, selecting a sub-topic and then any (in particular a
different) topic leaves the sub-topic cleared; and no reachable selection
state holds a sub-topic without a selected topic. -/
theorem selection_cascade_spec (s : SelectionState) :
    (∀ t : Option String,
      (handleTopicSelection t s).selectedTopic = t
      ∧ (handleTopicSelection t s).selectedSubTopic = none
      ∧ (handleTopicSelection t s).selectedTag = none)
    ∧ (∀ tg : String,
      (handleTagClick tg s).selectedTag = some tg
      ∧ (handleTagClick tg s).selectedTopic = none
      ∧ (handleTagClick tg s).selectedSubTopic = none)
    ∧ (∀ st t : Option String,
      (handleTopicSelection t (setSelectedSubTopicState st s)).selectedSubTopic = none)
    ∧ (ReachableSel s → s.selectedSubTopic.isSome = true →
        s.selectedTopic.isSome = true) := by
  exact ⟨fun t => ⟨rfl, rfl, rfl⟩, fun tg => ⟨rfl, rfl, rfl⟩,
    fun st t => rfl, fun h => reachable_subTopic_has_topic h⟩

/-- C1: when the extracted string parses as JSON but `title` is absent,
the failure the caller receives is the generic parse-failure message —
identical to the one produced for syntactically invalid text — because
the missing-title error is thrown inside the very `try` block whose
`catch` replaces every error with that generic message.  The failure is
fatal, but it neither names the missing title nor is distinguishable from
a parse failure, while the distinct message the code builds internally
never escapes. -/
theorem parseResponse_missing_title_generic :
    parseResponse parseStubEmptyObj "\x7b\x7d" = Except.error parseFailMsg
    ∧ parseResponse parseStubEmptyObj "not json" = Except.error parseFailMsg
    ∧ tryValidate parseStubEmptyObj "\x7b\x7d" = Except.error missingTitleMsg
    ∧ missingTitleMsg ≠ parseFailMsg := by
  exact ⟨rfl, rfl, rfl, by decide⟩

/-- C8: the load-time upgrade defaults a missing topic to the first
existing tag when any tag exists and to the fixed fallback "Biology"
otherwise, defaults absent tags to the empty list, is idempotent, and
does not alter records that already conform (a non-empty topic present
and a tags list present); the whole collection is upgraded pointwise. -/
theorem migrate_spec (p : StoredPaper) :
    (p.topic = none → ∀ (t : String) (ts : List String),
        p.tags = some (t :: ts) → (migratePaper p).topic = some t)
    ∧ (p.topic = none → (p.tags = none ∨ p.tags = some []) →
        (migratePaper p).topic = some "Biology")
    ∧ (p.tags = none → (migratePaper p).tags = some [])
    ∧ migratePaper (migratePaper p) = migratePaper p
    ∧ (conformsStored p → migratePaper p = p)
    ∧ (∀ l : List StoredPaper, migrate l = l.map migratePaper) := by
  refine ⟨?_, ?_, ?_, ?_, ?_, fun l => rfl⟩
  · intro htop t ts htags
    simp [migratePaper, htop, htags, jsTruthyStr]
  · intro htop htags
    rcases htags with h | h <;> simp [migratePaper, htop, h, jsTruthyStr]
  · intro htags
    simp [migratePaper, htags]
  · rcases p with ⟨pid, purl, ptitle, psummary, pauthors, ptopic, psub, ptags, pjournal, pdate, padded⟩
    rcases ptopic with _ | t
    · rcases ptags with _ | l
      · rfl
      · rcases l with _ | ⟨t0, ts⟩
        · rfl
        · by_cases h : t0 = ""
          · subst h; rfl
          · have hb : (t0 != "") = true := by simp [h]
            simp [migratePaper, jsTruthyStr, hb]
    · by_cases h : t = ""
      · subst h
        rcases ptags with _ | l
        · rfl
        · rcases l with _ | ⟨t0, ts⟩
          · rfl
          · by_cases h0 : t0 = ""
            · subst h0; rfl
            · have hb : (t0 != "") = true := by simp [h0]
              simp [migratePaper, jsTruthyStr, hb]
      · have hb : (t != "") = true := by simp [h]
        simp [migratePaper, jsTruthyStr, hb]
  · rintro ⟨⟨t, htop, ht⟩, ⟨l, htags⟩⟩
    have hb : (t != "") = true := by simp [ht]
    rcases p with ⟨pid, purl, ptitle, psummary, pauthors, ptopic, psub, ptags, pjournal, pdate, padded⟩
    simp only [StoredPaper.mk.injEq] at htop htags ⊢
    simp_all [migratePaper, jsTruthyStr]

/-- C8 witness: the specification's two legacy examples — tags
["fMRI", "memory"] and no topic upgrades to topic "fMRI"; no tags and no
topic upgrades to topic "Biology" and tags [] — and a conforming record
is unchanged. -/
theorem migrate_spec_witness :
    (migratePaper storedLegacyTagged).topic = some "fMRI"
    ∧ (migratePaper storedLegacyBare).topic = some "Biology"
    ∧ (migratePaper storedLegacyBare).tags = some [] := by
  refine ⟨(migrate_spec storedLegacyTagged).1 rfl "fMRI" ["memory"] rfl,
    (migrate_spec storedLegacyBare).2.1 rfl (Or.inl rfl),
    (migrate_spec storedLegacyBare).2.2.1 rfl⟩

/-- C4: admission is rejected exactly when some existing paper's title
equals the candidate's after lower-casing and trimming surrounding
whitespace; the rejection carries the dedicated already-exists message,
which the error renderer's `includes("already exists")` test
distinguishes from every other fixed ingestion failure message; on
rejection the collection is unchanged, and on acceptance exactly the new
paper is prepended. -/
theorem dedup_guard_spec (existing : List Paper) (md : PaperMetadata)
    (newId paperUrl : String) (now : Nat) :
    ((submitResult existing md newId paperUrl now).2 = some duplicateMsg
      ↔ ∃ p ∈ existing, jsTrim (jsToLower p.title) = jsTrim (jsToLower md.title))
    ∧ ((submitResult existing md newId paperUrl now).2 ≠ none →
        (submitResult existing md newId paperUrl now).1 = existing)
    ∧ ((submitResult existing md newId paperUrl now).2 = none →
        ∃ newPaper : Paper,
          (submitResult existing md newId paperUrl now).1 = newPaper :: existing
          ∧ newPaper.title = md.title)
    ∧ errIsDuplicate duplicateMsg = true
    ∧ errIsDuplicate parseFailMsg = false
    ∧ errIsDuplicate noResponseMsg = false
    ∧ errIsDuplicate missingTitleMsg = false
    ∧ errIsDuplicate "Please enter a URL" = false
    ∧ errIsDuplicate "Please enter a DOI" = false
    ∧ errIsDuplicate "Please select a PDF file" = false
    ∧ errIsDuplicate "Failed to retrieve metadata" = false := by
  have hany : isDuplicateTitle existing md.title = true ↔
      ∃ p ∈ existing, jsTrim (jsToLower p.title) = jsTrim (jsToLower md.title) := by
    unfold isDuplicateTitle
    rw [List.any_eq_true]
    constructor
    · rintro ⟨p, hp, hb⟩
      exact ⟨p, hp, eq_of_beq hb⟩
    · rintro ⟨p, hp, hb⟩
      exact ⟨p, hp, beq_iff_eq.mpr hb⟩
  refine ⟨?_, ?_, ?_, rfl, rfl, rfl, rfl, rfl, rfl, rfl, rfl⟩
  · cases hdup : isDuplicateTitle existing md.title with
    | true =>
      apply iff_of_true
      · simp [submitResult, hdup]
      · exact hany.mp hdup
    | false =>
      apply iff_of_false
      · simp [submitResult, hdup]
      · intro hex
        exact absurd (hany.mpr hex) (by simp [hdup])
  · intro hne
    cases hdup : isDuplicateTitle existing md.title with
    | true => simp [submitResult, hdup]
    | false => exact absurd (by simp [submitResult, hdup]) hne
  · intro hnone
    cases hdup : isDuplicateTitle existing md.title with
    | true =>
      have : (submitResult existing md newId paperUrl now).2 = some duplicateMsg := by
        simp [submitResult, hdup]
      rw [this] at hnone
      cases hnone
    | false =>
      exact ⟨mkNewPaper md newId paperUrl now,
        by simp [submitResult, hdup, handleAddPaper], rfl⟩

/-- C4 witness: the specification's example — a candidate titled
"Attention Is All You Need" collides with an existing paper titled
"  attention is all you need " and is rejected with the collection
unchanged. -/
theorem dedup_guard_spec_witness :
    (submitResult [attentionExisting] attentionCandidate "n" "u" 9).2
        = some duplicateMsg
    ∧ (submitResult [attentionExisting] attentionCandidate "n" "u" 9).1
        = [attentionExisting] := by
  have h := dedup_guard_spec [attentionExisting] attentionCandidate "n" "u" 9
  have h2 : (submitResult [attentionExisting] attentionCandidate "n" "u" 9).2
      = some duplicateMsg :=
    h.1.mpr ⟨attentionExisting, by simp, by decide⟩
  exact ⟨h2, h.2.1 (by simp [h2])⟩

theorem jsIncludes_emptyPattern {q : String} (hq : q ≠ "") :
    jsIncludes (jsToLower "") (jsToLower q) = false := by
  obtain ⟨l⟩ := q
  cases l with
  | nil => exact absurd rfl hq
  | cons c cs => rfl

theorem searchClaim_eq_matchesSearch (q : String) (p : Paper) (hq : q ≠ "") :
    searchClaim q p = matchesSearch q p := by
  cases hsub : p.subTopic with
  | none => simp [searchClaim, matchesSearch, hsub]
  | some st =>
    by_cases hst : st = ""
    · subst hst
      simp [searchClaim, matchesSearch, hsub, jsIncludes_emptyPattern hq]
    · have hb : (st != "") = true := by simp [hst]
      simp [searchClaim, matchesSearch, hsub, hb]

theorem claimMatchesAmended_eq (sel : SelectionState) (p : Paper) :
    claimMatchesAmended sel p = paperMatches sel p := by
  unfold claimMatchesAmended paperMatches
  by_cases hq : sel.searchQuery = ""
  · simp [hq]
  · have hqb : (sel.searchQuery == "") = false := by simp [hq]
    simp [hqb, searchClaim_eq_matchesSearch sel.searchQuery p hq]

/-- C2 (amended): the filter engine returns exactly the papers satisfying
the conjunction of the active predicates — topic equality, sub-topic
equality, tag membership, and for a non-empty searchText a
case-insensitive substring match against title, any author, any tag,
topic or present sub-topic — where an axis whose selection is the empty
string is inactive exactly like an unset axis; the result is ordered
descending by addedAt, and papers with equal timestamps keep the stored
order of the collection (papers are prepended on insertion, so most
recently inserted first). -/
theorem filteredPapers_amended_spec (papers : List Paper) (sel : SelectionState) :
    List.Perm (filteredPapers papers sel)
        (papers.filter (claimMatchesAmended sel))
    ∧ List.Pairwise (fun a b => b.addedAt ≤ a.addedAt) (filteredPapers papers sel)
    ∧ ∀ ts : Nat,
        (filteredPapers papers sel).filter (fun p => p.addedAt == ts)
          = (papers.filter (claimMatchesAmended sel)).filter
              (fun p => p.addedAt == ts) := by
  have hfil : papers.filter (claimMatchesAmended sel)
      = papers.filter (paperMatches sel) :=
    List.filter_congr (fun p _ => claimMatchesAmended_eq sel p)
  refine ⟨?_, ?_, ?_⟩
  · rw [hfil]
    exact sortDescBy_perm Paper.addedAt _
  · exact sortDescBy_pairwise Paper.addedAt _
  · intro ts
    rw [hfil]
    exact filter_sortDescBy_key Paper.addedAt ts _

/-- C2 counterexample: with the tag axis selected as the empty string the
claim as stated demands tag membership, which excludes this paper (its
tag list is empty), yet the code treats the empty selection as unset and
returns the paper. -/
theorem filteredPapers_counterexample :
    filteredPapers [paperNoTags] emptyTagSelection = [paperNoTags]
    ∧ List.filter (claimMatchesStrict emptyTagSelection) [paperNoTags] = []
    ∧ emptyTagSelection.selectedTag = some "" :=
  ⟨rfl, rfl, rfl⟩

theorem lookupNat_incrKey (m : List (String × Nat)) (k k' : String) :
    lookupNat (incrKey m k) k'
      = if k' = k then lookupNat m k' + 1 else lookupNat m k' := by
  induction m with
  | nil =>
    by_cases h : k' = k
    · subst h
      simp [incrKey, lookupNat, List.lookup]
    · have hb : (k' == k) = false := by simp [h]
      simp [incrKey, lookupNat, List.lookup, hb, h]
  | cons e rest ih =>
    obtain ⟨a, n⟩ := e
    by_cases hak : a = k
    · subst hak
      by_cases hk : k' = a
      · subst hk
        simp [incrKey, lookupNat, List.lookup]
      · have hb : (k' == a) = false := by simp [hk]
        simp [incrKey, lookupNat, List.lookup, hb, hk]
    · have hab : (a == k) = false := by simp [hak]
      by_cases hk : k' = a
      · subst hk
        have hne : ¬ k' = k := hak
        simp [incrKey, lookupNat, List.lookup, hab, hne]
      · have hb : (k' == a) = false := by simp [hk]
        by_cases hkk : k' = k
        · subst hkk
          have hba : (k' == a) = false := hb
          simp only [incrKey, hab, if_false, lookupNat, List.lookup, hba]
          have := ih
          simp only [lookupNat, if_pos rfl] at this
          exact this
        · rw [if_neg hkk]
          simp only [incrKey, hab, Bool.false_eq_true, if_false, lookupNat,
            List.lookup, hb]
          have := ih
          simp only [lookupNat, if_neg hkk] at this
          exact this

theorem incrKey_pos {m : List (String × Nat)} {k : String}
    (hm : ∀ e ∈ m, 0 < e.2) : ∀ e ∈ incrKey m k, 0 < e.2 := by
  induction m with
  | nil =>
    intro e he
    simp [incrKey] at he
    subst he
    omega
  | cons a rest ih =>
    obtain ⟨s, n⟩ := a
    intro e he
    by_cases h : s = k
    · subst h
      simp only [incrKey, beq_self_eq_true, if_true] at he
      rcases List.mem_cons.mp he with h1 | h1
      · subst h1
        exact Nat.succ_pos n
      · exact hm e (List.mem_cons_of_mem _ h1)
    · have hb : (s == k) = false := by simp [h]
      simp only [incrKey, hb, if_false] at he
      rcases List.mem_cons.mp he with h1 | h1
      · subst h1
        exact hm (s, n) (List.mem_cons_self _ _)
      · exact ih (fun e2 he2 => hm e2 (List.mem_cons_of_mem _ he2)) e h1

theorem incrKey_keys {m : List (String × Nat)} {k : String}
    {P : String → Prop} (hm : ∀ e ∈ m, P e.1) (hk : P k) :
    ∀ e ∈ incrKey m k, P e.1 := by
  induction m with
  | nil =>
    intro e he
    simp [incrKey] at he
    subst he
    exact hk
  | cons a rest ih =>
    obtain ⟨s, n⟩ := a
    intro e he
    by_cases h : s = k
    · subst h
      simp only [incrKey, beq_self_eq_true, if_true] at he
      rcases List.mem_cons.mp he with h1 | h1
      · subst h1
        exact hm (s, n) (List.mem_cons_self _ _)
      · exact hm e (List.mem_cons_of_mem _ h1)
    · have hb : (s == k) = false := by simp [h]
      simp only [incrKey, hb, if_false] at he
      rcases List.mem_cons.mp he with h1 | h1
      · subst h1
        exact hm (s, n) (List.mem_cons_self _ _)
      · exact ih (fun e2 he2 => hm e2 (List.mem_cons_of_mem _ he2)) e h1

theorem topicCounts_fold (papers : List Paper) (m : List (String × Nat))
    (t : String) (ht : t ≠ "") :
    lookupNat (papers.foldl
        (fun m p => if p.topic == "" then m else incrKey m p.topic) m) t
      = lookupNat m t + papers.countP (fun p => p.topic == t) := by
  induction papers generalizing m with
  | nil => simp
  | cons p rest ih =>
    rw [List.foldl_cons, List.countP_cons, ih]
    by_cases hpt : p.topic = ""
    · have hb : (p.topic == "") = true := by simp [hpt]
      have h2 : p.topic ≠ t := by rw [hpt]; exact fun h => ht h.symm
      have hnt : ¬ ((p.topic == t) = true) := by simp [h2]
      rw [if_pos hb, if_neg hnt]
      omega
    · have hb : (p.topic == "") = false := by simp [hpt]
      have hbne : ¬ ((p.topic == "") = true) := by simp [hb]
      by_cases heq : p.topic = t
      · subst heq
        have hb2 : (p.topic == p.topic) = true := by simp
        rw [if_neg hbne, if_pos hb2, lookupNat_incrKey, if_pos rfl]
        omega
      · have hbt : ¬ ((p.topic == t) = true) := by simp [heq]
        have hne : ¬ t = p.topic := fun h => heq h.symm
        rw [if_neg hbne, if_neg hbt, lookupNat_incrKey, if_neg hne]
        omega

theorem subTopicCounts_fold (papers : List Paper) (m : List (String × Nat))
    (sel st : String) (hst : st ≠ "") :
    lookupNat (papers.foldl
        (fun m p =>
          if p.topic == sel then
            match p.subTopic with
            | some s2 => if s2 == "" then m else incrKey m s2
            | none => m
          else m) m) st
      = lookupNat m st
        + papers.countP (fun p => p.topic == sel && p.subTopic == some st) := by
  induction papers generalizing m with
  | nil => simp
  | cons p rest ih =>
    rw [List.foldl_cons, List.countP_cons, ih]
    by_cases hpt : p.topic = sel
    · have hb : (p.topic == sel) = true := by simp [hpt]
      cases hsub : p.subTopic with
      | none =>
        simp [hb, hsub]
      | some s2 =>
        by_cases hs0 : s2 = ""
        · have h2 : s2 ≠ st := by rw [hs0]; exact fun h => hst h.symm
          have h3 : ¬ "" = st := fun h => hst h.symm
          simp [hb, hsub, hs0, h2, h3]
        · by_cases hsst : s2 = st
          · subst hsst
            have hss : ¬ ((s2 == "") = true) := by simp [hs0]
            simp [hb, hsub, hss, lookupNat_incrKey]
            omega
          · have hne : ¬ st = s2 := fun h => hsst h.symm
            simp [hb, hsub, hs0, hsst, lookupNat_incrKey, hne]
    · have hb : (p.topic == sel) = false := by simp [hpt]
      simp [hb]

theorem topicCounts_entries (papers : List Paper) :
    ∀ e ∈ topicCounts papers, e.1 ≠ "" ∧ 0 < e.2 := by
  have aux : ∀ (ps : List Paper) (m : List (String × Nat)),
      (∀ e ∈ m, e.1 ≠ "" ∧ 0 < e.2) →
      ∀ e ∈ ps.foldl
          (fun m p => if p.topic == "" then m else incrKey m p.topic) m,
        e.1 ≠ "" ∧ 0 < e.2 := by
    intro ps
    induction ps with
    | nil => intro m hm e he; exact hm e he
    | cons p rest ih =>
      intro m hm e he
      rw [List.foldl_cons] at he
      refine ih _ ?_ e he
      by_cases hpt : p.topic = ""
      · have hb : (p.topic == "") = true := by simp [hpt]
        simpa [hb] using hm
      · have hb : (p.topic == "") = false := by simp [hpt]
        simp only [hb, Bool.false_eq_true, if_false]
        intro e2 he2
        exact ⟨incrKey_keys (P := fun k => k ≠ "")
            (fun e3 he3 => (hm e3 he3).1) hpt e2 he2,
          incrKey_pos (fun e3 he3 => (hm e3 he3).2) e2 he2⟩
  intro e he
  exact aux papers [] (by simp) e he

theorem subTopicCounts_entries (papers : List Paper) (sel : Option String) :
    ∀ e ∈ subTopicCounts papers sel, 0 < e.2 := by
  cases sel with
  | none => simp [subTopicCounts]
  | some s =>
    by_cases hs : s = ""
    · have hb : (s == "") = true := by simp [hs]
      simp [subTopicCounts, hb]
    · have hb : (s == "") = false := by simp [hs]
      have aux : ∀ (ps : List Paper) (m : List (String × Nat)),
          (∀ e ∈ m, 0 < e.2) →
          ∀ e ∈ ps.foldl
              (fun m p =>
                if p.topic == s then
                  match p.subTopic with
                  | some s2 => if s2 == "" then m else incrKey m s2
                  | none => m
                else m) m,
            0 < e.2 := by
        intro ps
        induction ps with
        | nil => intro m hm e he; exact hm e he
        | cons p rest ih =>
          intro m hm e he
          rw [List.foldl_cons] at he
          refine ih _ ?_ e he
          by_cases hpt : p.topic = s
          · have hbt : (p.topic == s) = true := by simp [hpt]
            cases hsub : p.subTopic with
            | none => simpa [hbt, hsub] using hm
            | some s2 =>
              by_cases h2 : s2 = ""
              · have hb2 : (s2 == "") = true := by simp [h2]
                simpa [hbt, hsub, hb2] using hm
              · have hb2 : (s2 == "") = false := by simp [h2]
                simp only [hbt, if_true, hsub, hb2, Bool.false_eq_true, if_false]
                exact incrKey_pos hm
          · have hbt : (p.topic == s) = false := by simp [hpt]
            simpa [hbt] using hm
      intro e he
      simp only [subTopicCounts, hb, Bool.false_eq_true, if_false] at he
      exact aux papers [] (by simp) e he

/-- C3 (amended): topic counts map each non-empty topic to its occurrence
count, one occurrence per paper by its topic field; a paper whose topic is
the empty string is skipped by the code's truthiness guard; zero-count
entries are absent (every present entry is positive and non-empty-keyed);
sub-topic counts, for a selected non-empty topic, count the papers of
that topic having that non-empty sub-topic, and the mapping is empty when
no topic is selected; both mappings are presented sorted descending by
count. -/
theorem taxonomy_counts_amended_spec (papers : List Paper) (sel : Option String) :
    (∀ t : String, t ≠ "" →
        lookupNat (topicCounts papers) t = papers.countP (fun p => p.topic == t))
    ∧ (∀ e ∈ topicCounts papers, e.1 ≠ "" ∧ 0 < e.2)
    ∧ subTopicCounts papers none = []
    ∧ (∀ s : String, s ≠ "" → ∀ st : String, st ≠ "" →
        lookupNat (subTopicCounts papers (some s)) st
          = papers.countP (fun p => p.topic == s && p.subTopic == some st))
    ∧ (∀ e ∈ subTopicCounts papers sel, 0 < e.2)
    ∧ List.Perm (sortedTopics papers) (topicCounts papers)
    ∧ List.Pairwise (fun a b => b.2 ≤ a.2) (sortedTopics papers)
    ∧ List.Perm (sortedSubTopics papers sel) (subTopicCounts papers sel)
    ∧ List.Pairwise (fun a b => b.2 ≤ a.2) (sortedSubTopics papers sel) := by
  refine ⟨?_, topicCounts_entries papers, rfl, ?_, subTopicCounts_entries papers sel,
    sortDescBy_perm Prod.snd _, sortDescBy_pairwise Prod.snd _,
    sortDescBy_perm Prod.snd _, sortDescBy_pairwise Prod.snd _⟩
  · intro t ht
    have h := topicCounts_fold papers [] t ht
    simpa [topicCounts, lookupNat] using h
  · intro s hs st hst
    have hb : (s == "") = false := by simp [hs]
    have h := subTopicCounts_fold papers [] s st hst
    simp only [subTopicCounts, hb, Bool.false_eq_true, if_false]
    simpa [lookupNat] using h

/-- C3 counterexample: a paper whose topic is the empty string occurs
once, yet the computed topic mapping is empty and holds no entry for that
topic — the claim's "each topic maps to its occurrence count, zero-count
entries absent" fails there. -/
theorem topicCounts_counterexample :
    topicCounts [paperEmptyTopic] = []
    ∧ List.countP (fun p => p.topic == "") [paperEmptyTopic] = 1
    ∧ List.lookup "" (topicCounts [paperEmptyTopic]) = none :=
  ⟨rfl, rfl, rfl⟩

theorem closesFence_sound {cs : List Char} (h : closesFence cs = true) :
    ∃ ws rest, cs = ws ++ fenceTicks ++ rest ∧ ∀ c ∈ ws, wsCharB c = true := by
  unfold closesFence at h
  obtain ⟨rest, hrest⟩ := List.isPrefixOf_iff_prefix.mp h
  refine ⟨cs.takeWhile wsCharB, rest, ?_, fun c hc => List.mem_takeWhile_imp hc⟩
  rw [List.append_assoc, hrest]
  exact (List.takeWhile_append_dropWhile wsCharB cs).symm

theorem captureToFence_sound {cs g : List Char}
    (h : captureToFence cs = some g) :
    ∃ ws rest, cs = g ++ ws ++ fenceTicks ++ rest ∧ ∀ c ∈ ws, wsCharB c = true := by
  induction cs generalizing g with
  | nil => simp [captureToFence] at h
  | cons c cs ih =>
    unfold captureToFence at h
    by_cases hc : closesFence (c :: cs) = true
    · rw [if_pos hc] at h
      obtain ⟨ws, rest, hdecomp, hws⟩ := closesFence_sound hc
      have hg : g = [] := by
        injection h with h'
        exact h'.symm
      subst hg
      exact ⟨ws, rest, by simpa using hdecomp, hws⟩
    · rw [if_neg hc] at h
      cases hcap : captureToFence cs with
      | none => rw [hcap] at h; cases h
      | some g2 =>
        rw [hcap] at h
        have h' : some (c :: g2) = some g := h
        injection h' with h''
        obtain ⟨ws, rest, hdecomp, hws⟩ := ih hcap
        refine ⟨ws, rest, ?_, hws⟩
        rw [← h'', hdecomp]
        simp

theorem fenceCapture_cons (c : Char) (cs : List Char) :
    fenceCapture (c :: cs)
      = match (if jsonFenceOpen.isPrefixOf (c :: cs)
               then captureToFence (((c :: cs).drop 7).dropWhile wsCharB)
               else none) with
        | some g => some g
        | none => fenceCapture cs := rfl

theorem fenceCapture_sound {l g : List Char} (h : fenceCapture l = some g) :
    ∃ pre ws1 ws2 rest,
      l = pre ++ jsonFenceOpen ++ ws1 ++ g ++ ws2 ++ fenceTicks ++ rest
      ∧ (∀ c ∈ ws1, wsCharB c = true) ∧ (∀ c ∈ ws2, wsCharB c = true) := by
  induction l generalizing g with
  | nil => simp [fenceCapture] at h
  | cons c cs ih =>
    rw [fenceCapture_cons] at h
    by_cases hp : jsonFenceOpen.isPrefixOf (c :: cs) = true
    · rw [if_pos hp] at h
      cases hcap : captureToFence (((c :: cs).drop 7).dropWhile wsCharB) with
      | some g2 =>
        rw [hcap] at h
        have h' : some g2 = some g := h
        injection h' with h''
        subst h''
        obtain ⟨tail, htail⟩ := List.isPrefixOf_iff_prefix.mp hp
        have hdrop : (c :: cs).drop 7 = tail := by
          rw [← htail]
          have hlen : jsonFenceOpen.length = 7 := rfl
          rw [← hlen]
          exact List.drop_left jsonFenceOpen tail
        have hsplit : tail = tail.takeWhile wsCharB ++ tail.dropWhile wsCharB :=
          (List.takeWhile_append_dropWhile wsCharB tail).symm
        obtain ⟨ws2, rest, hdecomp, hws2⟩ := captureToFence_sound (by
          rw [hdrop] at hcap
          exact hcap)
        have h1 : c :: cs
            = jsonFenceOpen
              ++ (tail.takeWhile wsCharB ++ (g2 ++ ws2 ++ fenceTicks ++ rest)) := by
          rw [← htail]
          congr 1
          conv_lhs => rw [hsplit]
          rw [hdecomp]
        refine ⟨[], tail.takeWhile wsCharB, ws2, rest, ?_,
          fun x hx => List.mem_takeWhile_imp hx, hws2⟩
        rw [h1]
        simp [List.append_assoc]
      | none =>
        rw [hcap] at h
        have h' : fenceCapture cs = some g := h
        obtain ⟨pre, ws1, ws2, rest, hdecomp, hws1, hws2⟩ := ih h'
        exact ⟨c :: pre, ws1, ws2, rest, by rw [hdecomp]; simp, hws1, hws2⟩
    · rw [if_neg hp] at h
      have h' : fenceCapture cs = some g := h
      obtain ⟨pre, ws1, ws2, rest, hdecomp, hws1, hws2⟩ := ih h'
      exact ⟨c :: pre, ws1, ws2, rest, by rw [hdecomp]; simp, hws1, hws2⟩

theorem captureToFence_of_ticks {a b cs : List Char}
    (h : cs = a ++ fenceTicks ++ b) : captureToFence cs ≠ none := by
  induction a generalizing cs b with
  | nil =>
    subst h
    intro hno
    rw [show ([] ++ fenceTicks ++ b : List Char)
        = '\x60' :: ('\x60' :: '\x60' :: b) from rfl] at hno
    have hcl : closesFence ('\x60' :: ('\x60' :: '\x60' :: b)) = true := by
      unfold closesFence
      rw [show List.dropWhile wsCharB ('\x60' :: ('\x60' :: '\x60' :: b))
          = '\x60' :: ('\x60' :: '\x60' :: b) from rfl]
      exact List.isPrefixOf_iff_prefix.mpr ⟨b, rfl⟩
    unfold captureToFence at hno
    rw [if_pos hcl] at hno
    cases hno
  | cons x a2 ih =>
    subst h
    intro hno
    rw [show ((x :: a2) ++ fenceTicks ++ b : List Char)
        = x :: (a2 ++ fenceTicks ++ b) from by simp] at hno
    unfold captureToFence at hno
    by_cases hcl : closesFence (x :: (a2 ++ fenceTicks ++ b)) = true
    · rw [if_pos hcl] at hno
      cases hno
    · rw [if_neg hcl] at hno
      cases hcap : captureToFence (a2 ++ fenceTicks ++ b) with
      | none => exact ih rfl hcap
      | some g => rw [hcap] at hno; cases hno

theorem dropWhile_ticks (a b : List Char) :
    ∃ a2 b2, (a ++ fenceTicks ++ b).dropWhile wsCharB = a2 ++ fenceTicks ++ b2 := by
  induction a with
  | nil => exact ⟨[], b, rfl⟩
  | cons x a2 ih =>
    by_cases hx : wsCharB x = true
    · obtain ⟨a3, b3, h3⟩ := ih
      refine ⟨a3, b3, ?_⟩
      rw [show ((x :: a2) ++ fenceTicks ++ b : List Char)
          = x :: (a2 ++ fenceTicks ++ b) from by simp]
      rw [List.dropWhile_cons, if_pos hx]
      exact h3
    · refine ⟨x :: a2, b, ?_⟩
      rw [show ((x :: a2) ++ fenceTicks ++ b : List Char)
          = x :: (a2 ++ fenceTicks ++ b) from by simp]
      rw [List.dropWhile_cons, if_neg hx]

theorem fenceCapture_of_decomp (pre : List Char) :
    ∀ mid rest : List Char,
      fenceCapture (pre ++ jsonFenceOpen ++ mid ++ fenceTicks ++ rest) ≠ none := by
  induction pre with
  | nil =>
    intro mid rest
    rw [show ([] ++ jsonFenceOpen ++ mid ++ fenceTicks ++ rest : List Char)
        = '\x60' :: ('\x60' :: '\x60' :: 'j' :: 's' :: 'o' :: 'n'
            :: (mid ++ fenceTicks ++ rest)) from rfl]
    rw [fenceCapture_cons]
    have hp : jsonFenceOpen.isPrefixOf ('\x60' :: ('\x60' :: '\x60' :: 'j' :: 's'
        :: 'o' :: 'n' :: (mid ++ fenceTicks ++ rest))) = true :=
      List.isPrefixOf_iff_prefix.mpr ⟨mid ++ fenceTicks ++ rest, rfl⟩
    rw [if_pos hp]
    rw [show (('\x60' :: ('\x60' :: '\x60' :: 'j' :: 's' :: 'o' :: 'n'
        :: (mid ++ fenceTicks ++ rest)) : List Char).drop 7)
        = mid ++ fenceTicks ++ rest from rfl]
    obtain ⟨a2, b2, hdw⟩ := dropWhile_ticks mid rest
    rw [hdw]
    cases hcap : captureToFence (a2 ++ fenceTicks ++ b2) with
    | none => exact absurd hcap (captureToFence_of_ticks rfl)
    | some g => simp
  | cons x pre2 ih =>
    intro mid rest
    rw [show ((x :: pre2) ++ jsonFenceOpen ++ mid ++ fenceTicks ++ rest : List Char)
        = x :: (pre2 ++ jsonFenceOpen ++ mid ++ fenceTicks ++ rest) from by simp]
    rw [fenceCapture_cons]
    cases hbr : (if jsonFenceOpen.isPrefixOf
          (x :: (pre2 ++ jsonFenceOpen ++ mid ++ fenceTicks ++ rest))
        then captureToFence (((x :: (pre2 ++ jsonFenceOpen ++ mid ++ fenceTicks
            ++ rest)).drop 7).dropWhile wsCharB)
        else none) with
    | some g => simp
    | none => exact ih mid rest

theorem fenceCapture_none_of_not {l : List Char} (h : ¬ HasFence l) :
    fenceCapture l = none := by
  cases hg : fenceCapture l with
  | none => rfl
  | some g =>
    obtain ⟨pre, ws1, ws2, rest, hdecomp, _, _⟩ := fenceCapture_sound hg
    exact absurd ⟨pre, ws1 ++ g ++ ws2, rest, by rw [hdecomp]; simp⟩ h

theorem hasFence_of_capture {l g : List Char} (h : fenceCapture l = some g) :
    HasFence l := by
  obtain ⟨pre, ws1, ws2, rest, hdecomp, _, _⟩ := fenceCapture_sound h
  exact ⟨pre, ws1 ++ g ++ ws2, rest, by rw [hdecomp]; simp⟩

theorem firstIdxOf_sound {c : Char} {l : List Char} {i : Nat}
    (h : firstIdxOf c l = some i) : l[i]? = some c := by
  induction l generalizing i with
  | nil => simp [firstIdxOf] at h
  | cons x xs ih =>
    unfold firstIdxOf at h
    by_cases hx : (x == c) = true
    · rw [if_pos hx] at h
      injection h with h'
      subst h'
      simpa using eq_of_beq hx
    · rw [if_neg hx] at h
      cases hfi : firstIdxOf c xs with
      | none => rw [hfi] at h; cases h
      | some i2 =>
        rw [hfi] at h
        have h' : some (i2 + 1) = some i := h
        injection h' with h''
        subst h''
        simpa using ih hfi

theorem firstIdxOf_complete {c : Char} {l : List Char} {i : Nat}
    (hget : l[i]? = some c) (hmin : ∀ k, k < i → l[k]? ≠ some c) :
    firstIdxOf c l = some i := by
  induction l generalizing i with
  | nil => simp at hget
  | cons x xs ih =>
    cases i with
    | zero =>
      have hx : x = c := by simpa using hget
      subst hx
      simp [firstIdxOf]
    | succ i2 =>
      have hx : x ≠ c := by
        have := hmin 0 (Nat.succ_pos i2)
        simpa using this
      have hxb : ¬ ((x == c) = true) := by simp [hx]
      have hget2 : xs[i2]? = some c := by simpa using hget
      have hmin2 : ∀ k, k < i2 → xs[k]? ≠ some c := by
        intro k hk
        have := hmin (k + 1) (Nat.succ_lt_succ hk)
        simpa using this
      unfold firstIdxOf
      rw [if_neg hxb, ih hget2 hmin2]
      rfl

theorem lastIdxOf_none_of {c : Char} {l : List Char}
    (h : ∀ k : Nat, l[k]? ≠ some c) : lastIdxOf c l = none := by
  induction l with
  | nil => rfl
  | cons x xs ih =>
    have hx : x ≠ c := by
      have := h 0
      simpa using this
    have hxb : ¬ ((x == c) = true) := by simp [hx]
    have h2 : ∀ k : Nat, xs[k]? ≠ some c := by
      intro k
      have := h (k + 1)
      simpa using this
    unfold lastIdxOf
    rw [ih h2]
    simp [hxb]

theorem lastIdxOf_sound {c : Char} {l : List Char} {j : Nat}
    (h : lastIdxOf c l = some j) : l[j]? = some c := by
  induction l generalizing j with
  | nil => simp [lastIdxOf] at h
  | cons x xs ih =>
    unfold lastIdxOf at h
    cases hl : lastIdxOf c xs with
    | some k =>
      rw [hl] at h
      have h' : some (k + 1) = some j := h
      injection h' with h''
      subst h''
      simpa using ih hl
    | none =>
      rw [hl] at h
      by_cases hx : (x == c) = true
      · have h' : some 0 = some j := by
          rw [if_pos hx] at h
          exact h
        injection h' with h''
        subst h''
        simpa using eq_of_beq hx
      · rw [if_neg hx] at h
        cases h

theorem lastIdxOf_complete {c : Char} {l : List Char} {j : Nat}
    (hget : l[j]? = some c) (hmax : ∀ k, j < k → l[k]? ≠ some c) :
    lastIdxOf c l = some j := by
  induction l generalizing j with
  | nil => simp at hget
  | cons x xs ih =>
    cases j with
    | zero =>
      have hx : x = c := by simpa using hget
      have hnone : lastIdxOf c xs = none := by
        apply lastIdxOf_none_of
        intro k
        have := hmax (k + 1) (Nat.succ_pos k)
        simpa using this
      unfold lastIdxOf
      rw [hnone]
      simp [hx]
    | succ j2 =>
      have hget2 : xs[j2]? = some c := by simpa using hget
      have hmax2 : ∀ k, j2 < k → xs[k]? ≠ some c := by
        intro k hk
        have := hmax (k + 1) (Nat.succ_lt_succ hk)
        simpa using this
      unfold lastIdxOf
      rw [ih hget2 hmax2]

theorem extract_of_fence {text : String} {g : List Char}
    (hg : fenceCapture text.data = some g) :
    extractJsonString text = ⟨g⟩ := by
  unfold extractJsonString
  rw [hg]

theorem extract_bracePair {text : String} {i j : Nat}
    (hnf : fenceCapture text.data = none)
    (hfi : firstIdxOf '\x7b' text.data = some i)
    (hlj : lastIdxOf '\x7d' text.data = some j)
    (hij : i < j) :
    extractJsonString text = ⟨(text.data.drop i).take (j + 1 - i)⟩ := by
  unfold extractJsonString
  rw [hnf, hfi, hlj]
  show (if i < j then (⟨(text.data.drop i).take (j + 1 - i)⟩ : String)
      else jsTrim text) = _
  rw [if_pos hij]

theorem extract_noPair {text : String}
    (hnf : fenceCapture text.data = none)
    (hnp : ¬ ∃ i j : Nat, i < j ∧ text.data[i]? = some '\x7b'
        ∧ text.data[j]? = some '\x7d') :
    extractJsonString text = jsTrim text := by
  unfold extractJsonString
  rw [hnf]
  cases hfi : firstIdxOf '\x7b' text.data with
  | none => rfl
  | some i =>
    cases hlj : lastIdxOf '\x7d' text.data with
    | none => rfl
    | some j =>
      have hij : ¬ (i < j) := fun hlt =>
        hnp ⟨i, j, hlt, firstIdxOf_sound hfi, lastIdxOf_sound hlj⟩
      show (if i < j then (⟨(text.data.drop i).take (j + 1 - i)⟩ : String)
          else jsTrim text) = _
      rw [if_neg hij]

/-- C5: the response extractor is a total function applying ordered tiers
with the first match winning.  If the text contains a JSON-tagged fenced
code block, the result is that block's inner content: the text decomposes
around the returned capture, with only fence-internal whitespace between
the capture and the two fences.  With no such fence, when a first left
brace and a last right brace exist with the latter strictly after the
former, the result is the inclusive substring between them.  With no such
pair, the result is the trimmed original text, and downstream validation
of such non-JSON text fails with the generic parse-failure error. -/
theorem extractor_tiers_spec (text : String) :
    (HasFence text.data →
      ∃ g pre ws1 ws2 rest, extractJsonString text = String.mk g
        ∧ text.data = pre ++ jsonFenceOpen ++ ws1 ++ g ++ ws2 ++ fenceTicks ++ rest
        ∧ (∀ c ∈ ws1, wsCharB c = true) ∧ (∀ c ∈ ws2, wsCharB c = true))
    ∧ (¬ HasFence text.data →
      ∀ i j : Nat, text.data[i]? = some '\x7b' →
        (∀ k, k < i → text.data[k]? ≠ some '\x7b') →
        text.data[j]? = some '\x7d' →
        (∀ k, j < k → text.data[k]? ≠ some '\x7d') →
        i < j →
        extractJsonString text = String.mk ((text.data.drop i).take (j + 1 - i)))
    ∧ (¬ HasFence text.data →
      (¬ ∃ i j : Nat, i < j ∧ text.data[i]? = some '\x7b'
          ∧ text.data[j]? = some '\x7d') →
      extractJsonString text = jsTrim text)
    ∧ (∀ jsonParse : String → Option Json, text ≠ "" →
      ¬ HasFence text.data →
      (¬ ∃ i j : Nat, i < j ∧ text.data[i]? = some '\x7b'
          ∧ text.data[j]? = some '\x7d') →
      jsonParse (jsTrim text) = none →
      parseResponse jsonParse text = Except.error parseFailMsg) := by
  refine ⟨?_, ?_, ?_, ?_⟩
  · intro hf
    obtain ⟨pre, mid, rest, hdecomp⟩ := hf
    have hne : fenceCapture text.data ≠ none := by
      rw [hdecomp]
      exact fenceCapture_of_decomp pre mid rest
    cases hg : fenceCapture text.data with
    | none => exact absurd hg hne
    | some g =>
      obtain ⟨pre2, ws1, ws2, rest2, hdec2, hws1, hws2⟩ := fenceCapture_sound hg
      exact ⟨g, pre2, ws1, ws2, rest2, extract_of_fence hg, hdec2, hws1, hws2⟩
  · intro hnf i j hgi hmini hgj hmaxj hij
    exact extract_bracePair (fenceCapture_none_of_not hnf)
      (firstIdxOf_complete hgi hmini) (lastIdxOf_complete hgj hmaxj) hij
  · intro hnf hnp
    exact extract_noPair (fenceCapture_none_of_not hnf) hnp
  · intro jsonParse htext hnf hnp hparse
    have hx : extractJsonString text = jsTrim text :=
      extract_noPair (fenceCapture_none_of_not hnf) hnp
    unfold parseResponse
    rw [if_neg (show ¬ ((text == "") = true) from by simp [htext])]
    rw [hx]
    unfold tryValidate
    rw [hparse]

theorem firstIdxOf_none_sound {c : Char} {l : List Char}
    (h : firstIdxOf c l = none) : ∀ k : Nat, l[k]? ≠ some c := by
  induction l with
  | nil => intro k; simp
  | cons x xs ih =>
    unfold firstIdxOf at h
    by_cases hx : (x == c) = true
    · rw [if_pos hx] at h
      cases h
    · rw [if_neg hx] at h
      intro k
      cases k with
      | zero =>
        intro hk
        have : x = c := by simpa using hk
        exact hx (by simp [this])
      | succ k2 =>
        cases hfi : firstIdxOf c xs with
        | some i2 => rw [hfi] at h; cases h
        | none =>
          intro hk
          exact ih hfi k2 (by simpa using hk)

/-- C5 witness: on a text with no fence and no brace pair the extractor
returns the trimmed text and validation fails with the generic parse
error. -/
theorem extractor_tiers_spec_witness :
    extractJsonString " plain prose " = jsTrim " plain prose "
    ∧ parseResponse (fun _ => none) " plain prose "
        = Except.error parseFailMsg := by
  have h := extractor_tiers_spec " plain prose "
  refine ⟨h.2.2.1 ?hnf ?hnp, h.2.2.2 (fun _ => none) (by decide) ?hnf ?hnp rfl⟩
  case hnf =>
    intro hf
    obtain ⟨pre, mid, rest, hdecomp⟩ := hf
    have h1 : fenceCapture " plain prose ".data ≠ none := by
      rw [hdecomp]
      exact fenceCapture_of_decomp pre mid rest
    exact h1 rfl
  case hnp =>
    intro hp
    obtain ⟨i, j, hij, hi, hj⟩ := hp
    exact firstIdxOf_none_sound (c := '\x7b') (l := " plain prose ".data) rfl i hi

/-- C6: when the extracted string parses to an object whose `title` field
is a non-empty string, the validator succeeds even if every other
required field (summary, authors, tags, topic) is missing: the parsed
object itself is returned unchanged — so every present optional field
(subTopic, journal, publishDate) passes through identically — together
with the non-fatal incomplete-structure diagnostic flag, which a missing
summary (for instance) sets without failing the call. -/
theorem parseResponse_permissive_spec (jsonParse : String → Option Json)
    (text : String) (fs : List (String × Json)) (s : String)
    (htext : text ≠ "")
    (hparse : jsonParse (extractJsonString text) = some (Json.obj fs))
    (htitle : lookupField fs "title" = some (Json.str s)) (hs : s ≠ "") :
    parseResponse jsonParse text
        = Except.ok (Json.obj fs, jsIncomplete (Json.obj fs))
    ∧ jsField (Json.obj fs) "subTopic" = lookupField fs "subTopic"
    ∧ jsField (Json.obj fs) "journal" = lookupField fs "journal"
    ∧ jsField (Json.obj fs) "publishDate" = lookupField fs "publishDate"
    ∧ (jsTruthy (lookupField fs "summary") = false →
        jsIncomplete (Json.obj fs) = true) := by
  have htruthy : jsTruthy (jsField (Json.obj fs) "title") = true := by
    show jsTruthy (lookupField fs "title") = true
    rw [htitle]
    simpa [jsTruthy] using hs
  have h1 : tryValidate jsonParse (extractJsonString text)
      = Except.ok (Json.obj fs, jsIncomplete (Json.obj fs)) := by
    unfold tryValidate
    rw [hparse]
    simp [htruthy]
  refine ⟨?_, rfl, rfl, rfl, ?_⟩
  · unfold parseResponse
    rw [if_neg (show ¬ ((text == "") = true) from by simp [htext]), h1]
  · intro hsum
    simp [jsIncomplete, jsField, hsum]

/-- C6 witness: a response carrying only a title and optional fields
succeeds, returning the parsed object unchanged, with the diagnostic flag
set because summary, authors, tags and topic are absent. -/
theorem parseResponse_permissive_spec_witness :
    parseResponse parseStubTitled "only a title"
      = Except.ok (Json.obj titledFields, true) := by
  have h := parseResponse_permissive_spec parseStubTitled "only a title"
    titledFields "Attention Is All You Need" (by decide) rfl rfl (by decide)
  exact h.1

/-- C7 witness: the concrete state reached by selecting the topic
"Neuroscience" and then the sub-topic "Cognitive Neuroscience" is
reachable and holds a topic, and a subsequent different topic selection
clears the sub-topic. -/
theorem selection_cascade_spec_witness :
    subTopicSelectedState.selectedTopic.isSome = true
    ∧ (handleTopicSelection (some "Immunology")
        subTopicSelectedState).selectedSubTopic = none := by
  have hreach : ReachableSel subTopicSelectedState :=
    ReachableSel.step (SelEvent.subTopicSelect (some "Cognitive Neuroscience"))
      (ReachableSel.step (SelEvent.topicSelect (some "Neuroscience"))
        ReachableSel.init trivial) rfl
  exact ⟨(selection_cascade_spec subTopicSelectedState).2.2.2 hreach rfl,
    ((selection_cascade_spec subTopicSelectedState).1 (some "Immunology")).2.1⟩
